import Mathlib

/-!
Verification of the stochastic neighbor-weighted routing kernel of
pyDeltaRCM (`pyDeltaRCM/shared_tools.py`), shallowly embedded in Lean 4.

Modelling conventions:

* `float64` values are modelled by `ℚ` (exact arithmetic; the spec's
  "within floating-point tolerance" becomes exact equality).
* NumPy's `nan` sentinel, which the code uses to mark excluded directions,
  is modelled by `Option ℚ` with `none` playing the role of `nan`.
  Arithmetic on `nan` propagates (`none` absorbs), `np.nansum` sums the
  `Option.getD 0` values, and boolean masks become pointwise updates.
* `numba`/`int64` integers are modelled by `ℤ`; theorems carry an
  explicit range hypothesis wherever an intermediate could overflow.
* The process-wide random stream (`np.random.uniform` under `numba`) is
  modelled by explicit state passing: a stream is the list of uniform
  draws it will produce, and each call to `get_random_uniform` consumes
  the head of that list.
-/

namespace SharedTools

/-- A 9-entry neighbourhood array of floats in which entries may be the
`nan` marker (`none`). -/
abbrev Arr9 := Fin 9 → Option ℚ

/-- `np.nansum`: the sum of an array's entries, with `nan` treated as 0.
(On an all-`nan` array NumPy's `nansum` returns `0.0`, as here.) -/
def nansum (w : Arr9) : ℚ := ∑ i, (w i).getD 0

/-- The number of non-`nan` entries of the array: `len(weight[~nanWeight])`
in the source. -/
def numValid (w : Arr9) : ℕ := ∑ i, if (w i).isSome then 1 else 0

/-- `weight_sfc[:3] = np.nan` (and the same for `weight_int`): when the
source cell sits on row 0 (`ind[0] == 0`), the three upstream directions
are overwritten with `nan`; otherwise the plain float array is kept. -/
def maskRow0 (ind0 : ℤ) (w : Fin 9 → ℚ) : Arr9 :=
  fun i => if ind0 = 0 ∧ (i : ℕ) < 3 then none else some (w i)

/-- `drywall = (depth_nbrs <= dry_depth) | (ct_nbrs == -2)` followed by
`weight[drywall] = np.nan`. -/
def maskDrywall (depth_nbrs ct_nbrs : Fin 9 → ℚ) (dry_depth : ℚ)
    (w : Arr9) : Arr9 :=
  fun i => if depth_nbrs i ≤ dry_depth ∨ ct_nbrs i = -2 then none else w i

/-- `if np.nansum(w) > 0: w = w / np.nansum(w)`: normalize an array by its
nan-sum when that sum is positive, otherwise leave it unchanged.  Dividing
a `nan` entry by the sum leaves it `nan`. -/
def normalizeIfPos (w : Arr9) : Arr9 :=
  if 0 < nansum w then fun i => (w i).map fun v => v / nansum w else w

/-- `weight = gamma * weight_sfc + (1 - gamma) * weight_int`: the blend of
the two surfaces; a `nan` on either side makes the blended entry `nan`
(IEEE multiplication of `nan` by any float, zero included, yields `nan`). -/
def blend (gamma : ℚ) (a b : Arr9) : Arr9 :=
  fun i =>
    match a i, b i with
    | some x, some y => some (gamma * x + (1 - gamma) * y)
    | _, _ => none

/-- `weight = depth_nbrs ** theta * weight`.  The float exponent is
modelled as a natural power (NumPy also has `0.0 ** 0.0 = 1.0`, matching
`ℚ`); `nan` entries stay `nan`. -/
def depthMod (depth_nbrs : Fin 9 → ℚ) (theta : ℕ) (w : Arr9) : Arr9 :=
  fun i => (w i).map fun v => depth_nbrs i ^ theta * v

/-- `weight[depth_nbrs <= dry_depth] = 0`: dry directions are overwritten
with the float `0.0`.  Note this turns a `nan` entry at a dry direction
back into a plain (non-`nan`) zero. -/
def forceDryZero (depth_nbrs : Fin 9 → ℚ) (dry_depth : ℚ) (w : Arr9) : Arr9 :=
  fun i => if depth_nbrs i ≤ dry_depth then some 0 else w i

/-- `np.any(weight[~nanWeight] != 0)`: some non-`nan` entry is nonzero. -/
def anyNonzero (w : Arr9) : Prop := ∃ i, (w i).getD 0 ≠ 0

instance (w : Arr9) : Decidable (anyNonzero w) := by
  unfold anyNonzero; infer_instance

/-- The final branch of `get_weight_at_cell`: if some non-`nan` entry is
nonzero, divide by the nan-sum and zero out the `nan` entries; otherwise
set every non-`nan` entry to `1 / np.maximum(1, count_of_non_nan)` and the
`nan` entries to 0. -/
def resolveWeight (w : Arr9) : Fin 9 → ℚ :=
  if anyNonzero w then
    fun i =>
      match w i with
      | some v => v / nansum w
      | none => 0
  else
    fun i =>
      match w i with
      | some _ => 1 / ((max 1 (numValid w) : ℕ) : ℚ)
      | none => 0

/-- The state of the weight array just before the final branch of
`get_weight_at_cell`: after the row-0 masking, the dry/wall masking, the
two conditional per-surface normalizations, the gamma blend, the depth
modulation, and the dry overwrite `weight[depth_nbrs <= dry_depth] = 0`. -/
def preWeight (ind0 : ℤ) (weight_sfc weight_int depth_nbrs ct_nbrs : Fin 9 → ℚ)
    (dry_depth gamma : ℚ) (theta : ℕ) : Arr9 :=
  forceDryZero depth_nbrs dry_depth
    (depthMod depth_nbrs theta
      (blend gamma
        (normalizeIfPos
          (maskDrywall depth_nbrs ct_nbrs dry_depth (maskRow0 ind0 weight_sfc)))
        (normalizeIfPos
          (maskDrywall depth_nbrs ct_nbrs dry_depth (maskRow0 ind0 weight_int)))))

/-- `get_weight_at_cell(ind, weight_sfc, weight_int, depth_nbrs, ct_nbrs,
dry_depth, gamma, theta)` from `shared_tools.py`.  Only `ind[0]` is read
from `ind`, so the cell index is passed as its row `ind0`. -/
def get_weight_at_cell (ind0 : ℤ)
    (weight_sfc weight_int depth_nbrs ct_nbrs : Fin 9 → ℚ)
    (dry_depth gamma : ℚ) (theta : ℕ) : Fin 9 → ℚ :=
  resolveWeight
    (preWeight ind0 weight_sfc weight_int depth_nbrs ct_nbrs dry_depth gamma theta)

/-! ### `get_weight_sfc_int` -/

/-- IEEE division as performed by `x / d` in `get_weight_sfc_int`: for a
zero denominator the float result is non-finite (`0/0 = nan`; `a/0 = ±inf`
for `a ≠ 0`), so a zero denominator produces the invalid marker `none`.
The claims exercised here only reach the zero-denominator case with a zero
numerator (the self-direction, where `stage - stage_nbrs[4] = 0`), whose
float value is `nan`. -/
def divF (a b : ℚ) : Option ℚ := if b = 0 then none else some (a / b)

/-- `get_weight_sfc_int(stage, stage_nbrs, qx, qy, ivec, jvec, distances)`:
`weight_sfc = np.maximum(0, (stage - stage_nbrs) / distances)` and
`weight_int = np.maximum(0, (qx * jvec + qy * ivec) / distances)`.
The division is applied to every entry uniformly; there is no special
handling of any index. -/
def get_weight_sfc_int (stage : ℚ) (stage_nbrs : Fin 9 → ℚ) (qx qy : ℚ)
    (ivec jvec distances : Fin 9 → ℚ) :
    (Fin 9 → Option ℚ) × (Fin 9 → Option ℚ) :=
  (fun k => (divF (stage - stage_nbrs k) (distances k)).map fun v => max 0 v,
   fun k => (divF (qx * jvec k + qy * ivec k) (distances k)).map fun v => max 0 v)

/-! ### Index transforms

`custom_unravel` and `custom_ravel` run under `numba` on `int64` values,
modelled by `ℤ`; `//` and `%` are Python floor division and modulus
(`Int.fdiv` / `Int.fmod`).  `raise IndexError` is modelled by `none`. -/

/-- `custom_unravel(i, shape)`: raises when `i > shape[1] * shape[0]`,
otherwise returns `(i // shape[1], i % shape[1])`. -/
def custom_unravel (i : ℤ) (shape : ℤ × ℤ) : Option (ℤ × ℤ) :=
  if i > shape.2 * shape.1 then none
  else some (i.fdiv shape.2, i.fmod shape.2)

/-- `custom_ravel(tup, shape)`: raises when `tup[0] > shape[0]` or
`tup[1] > shape[1]`, otherwise returns `tup[0] * shape[1] + tup[1]`. -/
def custom_ravel (tup : ℤ × ℤ) (shape : ℤ × ℤ) : Option ℤ :=
  if tup.1 > shape.1 ∨ tup.2 > shape.2 then none
  else some (tup.1 * shape.2 + tup.2)

/-! ### Direction table and `get_steps` -/

/-- `get_iwalk()`: the 3×3 table of column deltas. -/
def get_iwalk : Fin 3 → Fin 3 → ℤ :=
  ![![-1, 0, 1],
    ![-1, 0, 1],
    ![-1, 0, 1]]

/-- `get_jwalk()`: the 3×3 table of row deltas. -/
def get_jwalk : Fin 3 → Fin 3 → ℤ :=
  ![![-1, -1, -1],
    ![0, 0, 0],
    ![1, 1, 1]]

/-- Row-major flattening of a 3×3 table to the 9 flat direction indices
(`numpy.ndarray.flatten`, as the callers do before indexing by a flat
`new_cells` index; the self-direction is flat index 4). -/
def flat9 (M : Fin 3 → Fin 3 → ℤ) (k : Fin 9) : ℤ :=
  M ⟨k.val / 3, by have := k.isLt; omega⟩ ⟨k.val % 3, by have := k.isLt; omega⟩

/-- `get_steps(new_cells, iwalk, jwalk)` for one chosen direction index:
`istep = iwalk[k]`, `jstep = jwalk[k]`,
`dist = np.sqrt(istep * istep + jstep * jstep)`, `astep = dist != 0`.
The float square root is the real square root, so `dist` lives in `ℝ`
and the boolean `astep` is the proposition `dist ≠ 0`. -/
noncomputable def get_steps (iwalk jwalk : Fin 9 → ℤ) (k : Fin 9) :
    ℝ × ℤ × ℤ × Prop :=
  (Real.sqrt ((iwalk k * iwalk k + jwalk k * jwalk k : ℤ) : ℝ),
   iwalk k, jwalk k,
   Real.sqrt ((iwalk k * iwalk k + jwalk k * jwalk k : ℤ) : ℝ) ≠ 0)

/-! ### Random stream and `random_pick` -/

/-- `get_random_uniform(N)` returns one uniform draw from the process-wide
random stream.  The stream is modelled by explicit state passing: its
state is the list of draws it will produce, and one call consumes the
head. -/
def get_random_uniform (stream : List ℚ) : Option (ℚ × List ℚ) :=
  match stream with
  | [] => none
  | u :: rest => some (u, rest)

/-- `np.cumsum`: inclusive cumulative sums, in the order of the input. -/
def cumsum : List ℚ → List ℚ
  | [] => []
  | x :: xs => x :: (cumsum xs).map fun y => x + y

/-- The binary search performed by `np.searchsorted(a, v)` (default
`side='left'`): maintain `lo < hi`, probe `mid = (lo + hi) / 2`, move
`lo` past `mid` when `a[mid] < v` and `hi` down to `mid` otherwise.  The
recursion is driven by a fuel counter bounding `hi - lo` (the loop's
variant) so that the definition is structural. -/
def bsearchL (a : List ℚ) (v : ℚ) : ℕ → ℕ → ℕ → ℕ
  | 0, lo, _hi => lo
  | fuel + 1, lo, hi =>
    if lo < hi then
      if a.getD ((lo + hi) / 2) 0 < v then bsearchL a v fuel ((lo + hi) / 2 + 1) hi
      else bsearchL a v fuel lo ((lo + hi) / 2)
    else lo

/-- `np.searchsorted(a, v)` with `side='left'`: binary search over the
whole array (`a.length` fuel suffices since the variant `hi - lo` starts
at `a.length`). -/
def searchsorted (a : List ℚ) (v : ℚ) : ℕ := bsearchL a v a.length 0 a.length

/-- `random_pick(prob)`: draw one uniform `u`, then
`arr[np.searchsorted(np.cumsum(prob), u)]` where `arr = np.arange(len(prob))`,
so the result is the searchsorted index itself; indexing `arr` out of
bounds (index `len(prob)`) raises, modelled by `none`.  The random stream
is passed and returned explicitly. -/
def random_pick (prob : List ℚ) (stream : List ℚ) : Option (ℕ × List ℚ) :=
  match get_random_uniform stream with
  | none => none
  | some (u, rest) =>
    if searchsorted (cumsum prob) u < prob.length
    then some (searchsorted (cumsum prob) u, rest)
    else none

/-! ### Generic facts about the weight pipeline -/

/-- All non-`nan` entries of an array are nonnegative. -/
def NNArr (w : Arr9) : Prop := ∀ i v, w i = some v → 0 ≤ v

lemma nansum_nonneg {w : Arr9} (hw : NNArr w) : 0 ≤ nansum w := by
  refine Finset.sum_nonneg fun i _ => ?_
  cases h : w i with
  | none => simp
  | some v => simpa using hw i v h

lemma nansum_pos {w : Arr9} (hw : NNArr w) (hA : anyNonzero w) :
    0 < nansum w := by
  obtain ⟨i, hi⟩ := hA
  cases h : w i with
  | none => rw [h] at hi; simp at hi
  | some v =>
    rw [h] at hi; simp only [Option.getD_some] at hi
    have hv : 0 < v := lt_of_le_of_ne (hw i v h) (Ne.symm hi)
    have hle : (w i).getD 0 ≤ nansum w := by
      refine Finset.single_le_sum (f := fun j => (w j).getD 0) ?_ (Finset.mem_univ i)
      intro j _
      show 0 ≤ (w j).getD 0
      cases hj : w j with
      | none => simp
      | some u => simpa using hw j u hj
    rw [h] at hle
    simp only [Option.getD_some] at hle
    exact lt_of_lt_of_le hv hle

lemma nn_maskRow0 {ind0 : ℤ} {w : Fin 9 → ℚ} (hw : ∀ i, 0 ≤ w i) :
    NNArr (maskRow0 ind0 w) := by
  intro i v h
  unfold maskRow0 at h
  split at h
  · exact absurd h (by simp)
  · obtain rfl : w i = v := by simpa using h
    exact hw i

lemma nn_maskDrywall {depth ct : Fin 9 → ℚ} {dry : ℚ} {w : Arr9}
    (hw : NNArr w) : NNArr (maskDrywall depth ct dry w) := by
  intro i v h
  unfold maskDrywall at h
  split at h
  · exact absurd h (by simp)
  · exact hw i v h

lemma nn_normalizeIfPos {w : Arr9} (hw : NNArr w) :
    NNArr (normalizeIfPos w) := by
  intro i v h
  unfold normalizeIfPos at h
  split at h
  case isTrue hpos =>
    have h2 : Option.map (fun u => u / nansum w) (w i) = some v := h
    cases hwi : w i with
    | none => rw [hwi] at h2; simp at h2
    | some u =>
      rw [hwi] at h2
      obtain rfl : u / nansum w = v := by simpa using h2
      exact div_nonneg (hw i u hwi) (le_of_lt hpos)
  case isFalse => exact hw i v h

lemma nn_blend {gamma : ℚ} {a b : Arr9} (ha : NNArr a) (hb : NNArr b)
    (hg0 : 0 ≤ gamma) (hg1 : gamma ≤ 1) : NNArr (blend gamma a b) := by
  intro i v h
  have h2 : (match a i, b i with
    | some x, some y => some (gamma * x + (1 - gamma) * y)
    | _, _ => none) = some v := h
  cases hai : a i with
  | none =>
    cases hbi : b i with
    | none => rw [hai, hbi] at h2; exact Option.noConfusion h2
    | some y => rw [hai, hbi] at h2; exact Option.noConfusion h2
  | some x =>
    cases hbi : b i with
    | none => rw [hai, hbi] at h2; exact Option.noConfusion h2
    | some y =>
      rw [hai, hbi] at h2
      obtain rfl : gamma * x + (1 - gamma) * y = v := by simpa using h2
      have := ha i x hai
      have := hb i y hbi
      have h1g : 0 ≤ 1 - gamma := by linarith
      positivity

lemma nn_depthMod {depth : Fin 9 → ℚ} {theta : ℕ} {w : Arr9}
    (hd : ∀ i, 0 ≤ depth i) (hw : NNArr w) : NNArr (depthMod depth theta w) := by
  intro i v h
  have h2 : Option.map (fun u => depth i ^ theta * u) (w i) = some v := h
  cases hwi : w i with
  | none => rw [hwi] at h2; exact Option.noConfusion h2
  | some u =>
    rw [hwi] at h2
    obtain rfl : depth i ^ theta * u = v := by simpa using h2
    exact mul_nonneg (pow_nonneg (hd i) theta) (hw i u hwi)

lemma nn_forceDryZero {depth : Fin 9 → ℚ} {dry : ℚ} {w : Arr9}
    (hw : NNArr w) : NNArr (forceDryZero depth dry w) := by
  intro i v h
  unfold forceDryZero at h
  split at h
  · obtain rfl : (0 : ℚ) = v := by simpa using h
    exact le_refl 0
  · exact hw i v h

/-- Under the physical contract (weight surfaces floored at zero, depths
nonnegative, `gamma ∈ [0, 1]`), every non-`nan` entry of the pre-branch
weight array is nonnegative. -/
lemma nn_preWeight {ind0 : ℤ} {wsfc wint depth ct : Fin 9 → ℚ}
    {dry gamma : ℚ} {theta : ℕ}
    (hs : ∀ i, 0 ≤ wsfc i) (hw : ∀ i, 0 ≤ wint i) (hd : ∀ i, 0 ≤ depth i)
    (hg0 : 0 ≤ gamma) (hg1 : gamma ≤ 1) :
    NNArr (preWeight ind0 wsfc wint depth ct dry gamma theta) := by
  unfold preWeight
  exact nn_forceDryZero (nn_depthMod hd (nn_blend
    (nn_normalizeIfPos (nn_maskDrywall (nn_maskRow0 hs)))
    (nn_normalizeIfPos (nn_maskDrywall (nn_maskRow0 hw))) hg0 hg1))

/-- In the renormalization branch the returned array is the pointwise
quotient of the pre-branch array (with `nan` as 0) by its nan-sum. -/
lemma resolveWeight_of_anyNonzero {w : Arr9} (hA : anyNonzero w) :
    resolveWeight w = fun i => (w i).getD 0 / nansum w := by
  funext i
  unfold resolveWeight
  rw [if_pos hA]
  cases h : w i with
  | none => simp [h]
  | some v => simp [h]

end SharedTools

namespace SharedTools

/-! ### Claims C3 and C4: the renormalization branch -/

/-- C3: whenever at least one non-`nan` entry of the weight array is
nonzero just before the final branch (the non-degenerate case) and the
inputs satisfy the kernel's contract (both raw surfaces floored at zero,
nonnegative depths, `gamma ∈ [0, 1]`), the returned vector sums to exactly
1 and every `nan`-marked (invalid) entry is returned as 0. -/
theorem c3_normalization_invariant (ind0 : ℤ)
    (wsfc wint depth ct : Fin 9 → ℚ) (dry gamma : ℚ) (theta : ℕ)
    (hs : ∀ i, 0 ≤ wsfc i) (hw : ∀ i, 0 ≤ wint i) (hd : ∀ i, 0 ≤ depth i)
    (hg0 : 0 ≤ gamma) (hg1 : gamma ≤ 1)
    (hA : anyNonzero (preWeight ind0 wsfc wint depth ct dry gamma theta)) :
    (∑ i, get_weight_at_cell ind0 wsfc wint depth ct dry gamma theta i) = 1 ∧
      ∀ i, preWeight ind0 wsfc wint depth ct dry gamma theta i = none →
        get_weight_at_cell ind0 wsfc wint depth ct dry gamma theta i = 0 := by
  have hnn : NNArr (preWeight ind0 wsfc wint depth ct dry gamma theta) :=
    nn_preWeight hs hw hd hg0 hg1
  have hpos := nansum_pos hnn hA
  have hres : get_weight_at_cell ind0 wsfc wint depth ct dry gamma theta
      = fun i => ((preWeight ind0 wsfc wint depth ct dry gamma theta i).getD 0) /
          nansum (preWeight ind0 wsfc wint depth ct dry gamma theta) := by
    unfold get_weight_at_cell
    exact resolveWeight_of_anyNonzero hA
  constructor
  · rw [hres, ← Finset.sum_div]
    exact div_self (ne_of_gt hpos)
  · intro i hnone
    rw [hres]
    simp [hnone]

/-- C3 witness: a concrete call in the renormalization branch (one wet
neighbour with positive blended weight): the output sums to 1 and the
`nan`-masked entries come back as 0. -/
theorem c3_normalization_invariant_witness :
    (∑ i, get_weight_at_cell 1 (fun _ => 1) (fun _ => 1)
        (fun i => if i.val ≤ 1 then 1 else 0) (fun _ => 0) 0 (1/2) 1 i) = 1 ∧
      ∀ i, preWeight 1 (fun _ => 1) (fun _ => 1)
          (fun i => if i.val ≤ 1 then 1 else 0) (fun _ => 0) 0 (1/2) 1 i = none →
        get_weight_at_cell 1 (fun _ => 1) (fun _ => 1)
          (fun i => if i.val ≤ 1 then 1 else 0) (fun _ => 0) 0 (1/2) 1 i = 0 := by
  refine c3_normalization_invariant 1 _ _ _ _ 0 (1/2) 1
    (fun i => by norm_num) (fun i => by norm_num)
    (fun i => by by_cases h : i.val ≤ 1 <;> simp [h]) (by norm_num) (by norm_num) ?_
  refine ⟨0, ?_⟩
  norm_num [preWeight, forceDryZero, depthMod, blend, normalizeIfPos,
    maskDrywall, maskRow0, nansum, Fin.sum_univ_succ]

end SharedTools

namespace SharedTools

/-! ### The degenerate uniform-fallback branch -/

lemma nansum_if_zero (c : Fin 9 → Prop) [DecidablePred c] :
    nansum (fun j => if c j then none else some (0 : ℚ)) = 0 := by
  refine Finset.sum_eq_zero fun i _ => ?_
  by_cases h : c i <;> simp [h]

lemma normalizeIfPos_of_not_pos {w : Arr9} (h : ¬ 0 < nansum w) :
    normalizeIfPos w = w := if_neg h

/-- With both raw weight surfaces identically zero (and the source cell
not on row 0), the pre-branch array is `some 0` exactly at the directions
that are wet (`depth > dry_depth`) or dry-by-depth, and `nan` exactly at
the wall directions (`ct = -2` with `depth > dry_depth`): the overwrite
`weight[depth_nbrs <= dry_depth] = 0` converts every dry-by-depth `nan`
back into a plain zero. -/
lemma preWeight_zero_surfaces (ind0 : ℤ)
    (wsfc wint depth ct : Fin 9 → ℚ) (dry gamma : ℚ) (theta : ℕ)
    (h0 : ind0 ≠ 0) (hs : ∀ i, wsfc i = 0) (hw : ∀ i, wint i = 0) :
    ∀ i, preWeight ind0 wsfc wint depth ct dry gamma theta i =
      if depth i ≤ dry ∨ ct i ≠ -2 then some 0 else none := by
  have hm : ∀ (f : Fin 9 → ℚ), (∀ j, f j = 0) →
      maskDrywall depth ct dry (maskRow0 ind0 f)
        = fun j => if depth j ≤ dry ∨ ct j = -2 then none else some 0 := by
    intro f hf
    funext j
    simp [maskDrywall, maskRow0, h0, hf j]
  intro i
  unfold preWeight
  rw [hm wsfc hs, hm wint hw,
    normalizeIfPos_of_not_pos (by rw [nansum_if_zero]; exact lt_irrefl 0)]
  by_cases hd : depth i ≤ dry
  · simp [forceDryZero, hd]
  · by_cases hc : ct i = -2
    · simp [forceDryZero, depthMod, blend, hd, hc]
    · simp [forceDryZero, depthMod, blend, hd, hc]

/-- With both raw weight surfaces identically zero (and the source cell
not on row 0), `get_weight_at_cell` takes the degenerate fallback branch
and returns `1 / count` at every direction that is wet or dry-by-depth —
`count` being the number of such directions — and 0 only at the wall
directions. -/
lemma get_weight_fallback_eval (ind0 : ℤ)
    (wsfc wint depth ct : Fin 9 → ℚ) (dry gamma : ℚ) (theta : ℕ)
    (h0 : ind0 ≠ 0) (hs : ∀ i, wsfc i = 0) (hw : ∀ i, wint i = 0) :
    ∀ i, get_weight_at_cell ind0 wsfc wint depth ct dry gamma theta i =
      if depth i ≤ dry ∨ ct i ≠ -2
      then 1 / ((max 1 (∑ j : Fin 9, if depth j ≤ dry ∨ ct j ≠ -2 then 1 else 0) : ℕ) : ℚ)
      else 0 := by
  have hpre := preWeight_zero_surfaces ind0 wsfc wint depth ct dry gamma theta h0 hs hw
  have hnot : ¬ anyNonzero (preWeight ind0 wsfc wint depth ct dry gamma theta) := by
    rintro ⟨i, hi⟩
    rw [hpre i] at hi
    by_cases hc : depth i ≤ dry ∨ ct i ≠ -2 <;> simp [hc] at hi
  have hnv : numValid (preWeight ind0 wsfc wint depth ct dry gamma theta)
      = ∑ j : Fin 9, if depth j ≤ dry ∨ ct j ≠ -2 then 1 else 0 := by
    refine Finset.sum_congr rfl fun j _ => ?_
    rw [hpre j]
    by_cases hc : depth j ≤ dry ∨ ct j ≠ -2 <;> simp [hc]
  intro i
  show resolveWeight _ i = _
  unfold resolveWeight
  rw [if_neg hnot]
  show (match preWeight ind0 wsfc wint depth ct dry gamma theta i with
    | some _ => 1 / ((max 1 (numValid (preWeight ind0 wsfc wint depth ct dry gamma theta)) : ℕ) : ℚ)
    | none => 0) = _
  rw [hpre i, hnv]
  by_cases hc : depth i ≤ dry ∨ ct i ≠ -2 <;> simp [hc]

lemma normalizeIfPos_isSome (w : Arr9) (i : Fin 9) :
    ((normalizeIfPos w) i).isSome = (w i).isSome := by
  unfold normalizeIfPos
  split
  · show ((w i).map _).isSome = (w i).isSome
    cases w i <;> rfl
  · rfl

lemma blend_isSome (gamma : ℚ) (a b : Arr9) (i : Fin 9) :
    ((blend gamma a b) i).isSome = ((a i).isSome && (b i).isSome) := by
  show (match a i, b i with
    | some x, some y => some (gamma * x + (1 - gamma) * y)
    | _, _ => none).isSome = ((a i).isSome && (b i).isSome)
  cases a i <;> cases b i <;> rfl

lemma depthMod_isSome (depth : Fin 9 → ℚ) (theta : ℕ) (w : Arr9) (i : Fin 9) :
    ((depthMod depth theta w) i).isSome = (w i).isSome := by
  show ((w i).map _).isSome = (w i).isSome
  cases w i <;> rfl

lemma forceDryZero_not_dry {depth : Fin 9 → ℚ} {dry : ℚ} (w : Arr9) {i : Fin 9}
    (h : ¬ depth i ≤ dry) : forceDryZero depth dry w i = w i := by
  unfold forceDryZero
  simp [h]

/-- Which entries of the pre-branch array are non-`nan` on an arbitrary
call: the dry-by-depth directions (revived to plain zeros by the dry
overwrite) together with the directions masked neither as walls
(`ct = -2`) nor by the row-0 edge rule. -/
lemma isSome_preWeight (ind0 : ℤ)
    (wsfc wint depth ct : Fin 9 → ℚ) (dry gamma : ℚ) (theta : ℕ) (i : Fin 9) :
    (preWeight ind0 wsfc wint depth ct dry gamma theta i).isSome
      ↔ (depth i ≤ dry ∨ (ct i ≠ -2 ∧ ¬ (ind0 = 0 ∧ (i : ℕ) < 3))) := by
  by_cases hd : depth i ≤ dry
  · have h : preWeight ind0 wsfc wint depth ct dry gamma theta i = some 0 := by
      show forceDryZero depth dry _ i = some 0
      unfold forceDryZero
      simp [hd]
    simp [h, hd]
  · have h : (preWeight ind0 wsfc wint depth ct dry gamma theta i).isSome
        = ((maskDrywall depth ct dry (maskRow0 ind0 wsfc) i).isSome
          && (maskDrywall depth ct dry (maskRow0 ind0 wint) i).isSome) := by
      have hstep : preWeight ind0 wsfc wint depth ct dry gamma theta i
          = depthMod depth theta (blend gamma
              (normalizeIfPos (maskDrywall depth ct dry (maskRow0 ind0 wsfc)))
              (normalizeIfPos (maskDrywall depth ct dry (maskRow0 ind0 wint)))) i := by
        show forceDryZero depth dry _ i = _
        exact forceDryZero_not_dry _ hd
      rw [hstep, depthMod_isSome, blend_isSome,
        normalizeIfPos_isSome, normalizeIfPos_isSome]
    by_cases hc : ct i = -2
    · have hm : ∀ f : Fin 9 → ℚ,
          maskDrywall depth ct dry (maskRow0 ind0 f) i = none := by
        intro f
        unfold maskDrywall
        simp [hc]
      rw [h, hm, hm]
      simp [hd, hc]
    · by_cases he : ind0 = 0 ∧ (i : ℕ) < 3
      · have hm : ∀ f : Fin 9 → ℚ,
            maskDrywall depth ct dry (maskRow0 ind0 f) i = none := by
          intro f
          unfold maskDrywall maskRow0
          simp [hd, hc, he]
        rw [h, hm, hm]
        simp [hd, hc, he]
      · have hm : ∀ f : Fin 9 → ℚ,
            maskDrywall depth ct dry (maskRow0 ind0 f) i = some (f i) := by
          intro f
          unfold maskDrywall maskRow0
          simp [hd, hc, he]
        rw [h, hm, hm]
        simp [hd, hc, he]

end SharedTools

namespace SharedTools

/-! ### Claim C1: the uniform fallback -/

/-- C1 (counterexample): three wet directions (indices 1, 3, 5, depth 1,
normal cell type) with all raw weights zero, the six other directions dry
(depth 0 ≤ dry_depth = 0).  The claim demands 1/3 at each wet direction
and 0 at every invalid one; the code instead counts the six dry-by-depth
directions among the "valid" entries of the fallback (they were
overwritten with non-`nan` zeros) and returns 1/9 everywhere. -/
theorem c1_counterexample :
    get_weight_at_cell 1 (fun _ => 0) (fun _ => 0)
        (fun i => if i.val = 1 ∨ i.val = 3 ∨ i.val = 5 then 1 else 0)
        (fun _ => 0) 0 (1/2) 1 1 = 1/9 ∧
      get_weight_at_cell 1 (fun _ => 0) (fun _ => 0)
        (fun i => if i.val = 1 ∨ i.val = 3 ∨ i.val = 5 then 1 else 0)
        (fun _ => 0) 0 (1/2) 1 0 = 1/9 ∧
      ¬ (get_weight_at_cell 1 (fun _ => 0) (fun _ => 0)
            (fun i => if i.val = 1 ∨ i.val = 3 ∨ i.val = 5 then 1 else 0)
            (fun _ => 0) 0 (1/2) 1 1 = 1/3 ∧
          get_weight_at_cell 1 (fun _ => 0) (fun _ => 0)
            (fun i => if i.val = 1 ∨ i.val = 3 ∨ i.val = 5 then 1 else 0)
            (fun _ => 0) 0 (1/2) 1 0 = 0) := by
  have h := get_weight_fallback_eval 1 (fun _ => 0) (fun _ => 0)
    (fun i => if i.val = 1 ∨ i.val = 3 ∨ i.val = 5 then 1 else 0)
    (fun _ => 0) 0 (1/2) 1 (by norm_num) (fun _ => rfl) (fun _ => rfl)
  have h1 : get_weight_at_cell 1 (fun _ => 0) (fun _ => 0)
      (fun i => if i.val = 1 ∨ i.val = 3 ∨ i.val = 5 then 1 else 0)
      (fun _ => 0) 0 (1/2) 1 1 = 1/9 := by
    rw [h 1]
    norm_num [Fin.sum_univ_succ]
  have h0 : get_weight_at_cell 1 (fun _ => 0) (fun _ => 0)
      (fun i => if i.val = 1 ∨ i.val = 3 ∨ i.val = 5 then 1 else 0)
      (fun _ => 0) 0 (1/2) 1 0 = 1/9 := by
    rw [h 0]
    norm_num [Fin.sum_univ_succ]
  refine ⟨h1, h0, ?_⟩
  rintro ⟨ha, -⟩
  rw [h1] at ha
  norm_num at ha

/-- C1 (amended): whenever the degenerate fallback branch is taken — that
is, every non-`nan` entry of the array reaching the final branch is
exactly zero, equivalently every valid direction's weight after masking,
normalization, blending and depth modulation is zero (the dry-by-depth
entries are zero by the overwrite regardless) — `get_weight_at_cell`
returns `1 / count` at every direction that is either dry-by-depth
(`depth ≤ dry_depth`) or unmasked (`ct ≠ -2` and not edge-masked by the
row-0 rule), `count` being the number of such directions, and 0 at the
wall and edge-masked directions.  Only when every invalid direction is
invalid by wall type or edge masking (none by depth) does this coincide
with the claim's "1/k over the k valid directions, 0 elsewhere". -/
theorem c1_uniform_fallback_amended (ind0 : ℤ)
    (wsfc wint depth ct : Fin 9 → ℚ) (dry gamma : ℚ) (theta : ℕ)
    (hfb : ¬ anyNonzero (preWeight ind0 wsfc wint depth ct dry gamma theta)) :
    ∀ i, get_weight_at_cell ind0 wsfc wint depth ct dry gamma theta i =
      if depth i ≤ dry ∨ (ct i ≠ -2 ∧ ¬ (ind0 = 0 ∧ (i : ℕ) < 3))
      then 1 / ((max 1 (∑ j : Fin 9,
          if depth j ≤ dry ∨ (ct j ≠ -2 ∧ ¬ (ind0 = 0 ∧ (j : ℕ) < 3))
          then 1 else 0) : ℕ) : ℚ)
      else 0 := by
  have hnv : numValid (preWeight ind0 wsfc wint depth ct dry gamma theta)
      = ∑ j : Fin 9,
          if depth j ≤ dry ∨ (ct j ≠ -2 ∧ ¬ (ind0 = 0 ∧ (j : ℕ) < 3))
          then 1 else 0 := by
    refine Finset.sum_congr rfl fun j _ => ?_
    by_cases h : depth j ≤ dry ∨ (ct j ≠ -2 ∧ ¬ (ind0 = 0 ∧ (j : ℕ) < 3))
    · rw [if_pos ((isSome_preWeight ind0 wsfc wint depth ct dry gamma theta j).mpr h),
        if_pos h]
    · rw [if_neg fun hc =>
          h ((isSome_preWeight ind0 wsfc wint depth ct dry gamma theta j).mp hc),
        if_neg h]
  intro i
  show resolveWeight _ i = _
  unfold resolveWeight
  rw [if_neg hfb]
  show (match preWeight ind0 wsfc wint depth ct dry gamma theta i with
    | some _ =>
      1 / ((max 1 (numValid (preWeight ind0 wsfc wint depth ct dry gamma theta)) : ℕ) : ℚ)
    | none => 0) = _
  by_cases h : depth i ≤ dry ∨ (ct i ≠ -2 ∧ ¬ (ind0 = 0 ∧ (i : ℕ) < 3))
  · obtain ⟨v, hv⟩ := Option.isSome_iff_exists.mp
      ((isSome_preWeight ind0 wsfc wint depth ct dry gamma theta i).mpr h)
    rw [hv, hnv, if_pos h]
  · have hnone : preWeight ind0 wsfc wint depth ct dry gamma theta i = none :=
      Option.not_isSome_iff_eq_none.mp fun hc =>
        h ((isSome_preWeight ind0 wsfc wint depth ct dry gamma theta i).mp hc)
    rw [hnone, if_neg h]

/-- C1 witness: two instantiations of the amended theorem.  First, with
`gamma = 1`, `weight_int ≡ 1`, `weight_sfc ≡ 0`, three wet normal
directions (1, 3, 5) and walls elsewhere, the blend is zero on every
valid direction although the raw surfaces are not all zero; the fallback
branch runs and returns 1/3 at each wet direction, 0 at the walls.
Second, a row-0 source cell (`ind0 = 0`) with all raw weights zero and
all nine neighbours wet: the three edge-masked directions come back 0 and
each of the six remaining directions gets 1/6. -/
theorem c1_uniform_fallback_witness :
    (get_weight_at_cell 1 (fun _ => 0) (fun _ => 1) (fun _ => 1)
        (fun i => if i.val = 1 ∨ i.val = 3 ∨ i.val = 5 then 0 else -2)
        0 1 1 1 = 1/3 ∧
      get_weight_at_cell 1 (fun _ => 0) (fun _ => 1) (fun _ => 1)
        (fun i => if i.val = 1 ∨ i.val = 3 ∨ i.val = 5 then 0 else -2)
        0 1 1 0 = 0) ∧
      (get_weight_at_cell 0 (fun _ => 0) (fun _ => 0) (fun _ => 1)
          (fun _ => 0) 0 (1/2) 1 0 = 0 ∧
        get_weight_at_cell 0 (fun _ => 0) (fun _ => 0) (fun _ => 1)
          (fun _ => 0) 0 (1/2) 1 3 = 1/6) := by
  have hfbA : ¬ anyNonzero (preWeight 1 (fun _ => 0) (fun _ => 1) (fun _ => 1)
      (fun i => if i.val = 1 ∨ i.val = 3 ∨ i.val = 5 then 0 else -2) 0 1 1) := by
    rintro ⟨i, hi⟩
    apply hi
    fin_cases i <;>
      norm_num [preWeight, forceDryZero, depthMod, blend, normalizeIfPos,
        maskDrywall, maskRow0, nansum, Fin.sum_univ_succ]
  have hfbB : ¬ anyNonzero (preWeight 0 (fun _ => 0) (fun _ => 0) (fun _ => 1)
      (fun _ => 0) 0 (1/2) 1) := by
    rintro ⟨i, hi⟩
    apply hi
    fin_cases i <;>
      norm_num [preWeight, forceDryZero, depthMod, blend, normalizeIfPos,
        maskDrywall, maskRow0, nansum, Fin.sum_univ_succ]
  have hA := c1_uniform_fallback_amended 1 (fun _ => 0) (fun _ => 1) (fun _ => 1)
    (fun i => if i.val = 1 ∨ i.val = 3 ∨ i.val = 5 then 0 else -2) 0 1 1 hfbA
  have hB := c1_uniform_fallback_amended 0 (fun _ => 0) (fun _ => 0) (fun _ => 1)
    (fun _ => 0) 0 (1/2) 1 hfbB
  have h3 : ((3 : Fin 9) : ℕ) = 3 := rfl
  refine ⟨⟨?_, ?_⟩, ?_, ?_⟩
  · rw [hA 1]
    simp only [Fin.sum_univ_succ, Fin.sum_univ_zero, Fin.val_succ, Fin.val_zero,
      Fin.val_one]
    norm_num [Nat.max_def]
  · rw [hA 0]
    simp only [Fin.sum_univ_succ, Fin.sum_univ_zero, Fin.val_succ, Fin.val_zero,
      Fin.val_one]
    norm_num [Nat.max_def]
  · rw [hB 0]
    simp only [Fin.sum_univ_succ, Fin.sum_univ_zero, Fin.val_succ, Fin.val_zero,
      Fin.val_one]
    norm_num [Nat.max_def]
  · rw [hB 3]
    simp only [Fin.sum_univ_succ, Fin.sum_univ_zero, Fin.val_succ, Fin.val_zero,
      Fin.val_one, h3]
    norm_num [Nat.max_def]

/-! ### Claim C2: the all-dry degenerate case -/

/-- C2 (evidence of the divergence): with every neighbour depth ≤
`dry_depth` (all nine directions dry, no walls, source cell not on row 0),
`get_weight_at_cell` does NOT return the all-zero "trapped parcel" marker:
the overwrite `weight[depth_nbrs <= dry_depth] = 0` makes all nine entries
non-`nan` zeros, so the fallback branch counts 9 "valid" entries and
returns the uniform vector with every entry 1/9. -/
theorem c2_all_dry_returns_uniform :
    ∀ i : Fin 9,
      get_weight_at_cell 1 (fun _ => 0) (fun _ => 0) (fun _ => 0) (fun _ => 0)
        0 (1/2) 1 i = 1/9 := by
  intro i
  rw [get_weight_fallback_eval 1 (fun _ => 0) (fun _ => 0) (fun _ => 0)
    (fun _ => 0) 0 (1/2) 1 (by norm_num) (fun _ => rfl) (fun _ => rfl) i]
  norm_num [Fin.sum_univ_succ]

end SharedTools

namespace SharedTools

/-! ### Claim C4: hard exclusion of dry directions -/

/-- C4 (counterexample): direction 0 has depth 0 ≤ dry_depth = 0 (it is
dry), yet with all raw weights zero the fallback branch is taken and
direction 0 receives weight 1/9, not 0: the dry overwrite happens before
the fallback, which counts the dry zeros among the non-`nan` entries. -/
theorem c4_counterexample :
    (fun i : Fin 9 => if (i : ℕ) = 1 then (2 : ℚ) else 0) 0 ≤ 0 ∧
      get_weight_at_cell 1 (fun _ => 0) (fun _ => 0)
        (fun i => if (i : ℕ) = 1 then 2 else 0) (fun _ => 0) 0 (1/3) 2 0 = 1/9 ∧
      (1/9 : ℚ) ≠ 0 := by
  refine ⟨by norm_num, ?_, by norm_num⟩
  rw [get_weight_fallback_eval 1 (fun _ => 0) (fun _ => 0)
    (fun i => if (i : ℕ) = 1 then 2 else 0) (fun _ => 0) 0 (1/3) 2
    (by norm_num) (fun _ => rfl) (fun _ => rfl) 0]
  norm_num [Fin.sum_univ_succ]

/-- C4 (amended): a direction whose neighbour depth is ≤ `dry_depth` is
returned with weight exactly 0 whenever the renormalization branch is
taken (some non-`nan` entry nonzero before the final branch), under the
kernel's contract on the inputs.  In the degenerate fallback branch the
dry-by-depth directions instead receive the positive uniform share (see
the counterexample). -/
theorem c4_dry_exclusion_amended (ind0 : ℤ)
    (wsfc wint depth ct : Fin 9 → ℚ) (dry gamma : ℚ) (theta : ℕ)
    (hs : ∀ i, 0 ≤ wsfc i) (hw : ∀ i, 0 ≤ wint i) (hd : ∀ i, 0 ≤ depth i)
    (hg0 : 0 ≤ gamma) (hg1 : gamma ≤ 1)
    (hA : anyNonzero (preWeight ind0 wsfc wint depth ct dry gamma theta)) :
    ∀ i, depth i ≤ dry →
      get_weight_at_cell ind0 wsfc wint depth ct dry gamma theta i = 0 := by
  intro i hi
  have hp : preWeight ind0 wsfc wint depth ct dry gamma theta i = some 0 := by
    show forceDryZero depth dry _ i = some 0
    unfold forceDryZero
    simp [hi]
  show resolveWeight _ i = 0
  rw [resolveWeight_of_anyNonzero hA]
  simp [hp]

/-- C4 witness: a concrete renormalization-branch call (wet directions 0
and 1 carry positive weight) in which the dry direction 2 indeed comes
back with weight 0. -/
theorem c4_dry_exclusion_witness :
    get_weight_at_cell 1 (fun _ => 1) (fun _ => 1)
      (fun i => if i.val ≤ 1 then 1 else 0) (fun _ => 0) 0 (1/2) 1 2 = 0 := by
  refine c4_dry_exclusion_amended 1 _ _ _ _ 0 (1/2) 1
    (fun i => by norm_num) (fun i => by norm_num)
    (fun i => by by_cases h : i.val ≤ 1 <;> simp [h]) (by norm_num) (by norm_num)
    ?_ 2 (by norm_num)
  refine ⟨0, ?_⟩
  norm_num [preWeight, forceDryZero, depthMod, blend, normalizeIfPos,
    maskDrywall, maskRow0, nansum, Fin.sum_univ_succ]

end SharedTools

namespace SharedTools

/-! ### Claim C5: the weight surfaces -/

/-- C5 (counterexample): with the self-direction distance 0 (and the
neighbour stage equal to the source stage there, so the numerator is 0),
the self entry of both surfaces is the non-finite float `0/0 = nan`
(modelled `none`): the division by zero is actually performed — there is
no guard excluding the self-direction. -/
theorem c5_counterexample :
    (get_weight_sfc_int 5 (fun _ => 5) 0 0 (fun _ => 0) (fun _ => 0)
        (fun k => if k.val = 4 then 0 else 1)).1 4 = none ∧
      (get_weight_sfc_int 5 (fun _ => 5) 0 0 (fun _ => 0) (fun _ => 0)
        (fun k => if k.val = 4 then 0 else 1)).2 4 = none := by
  have h4 : ((4 : Fin 9) : ℕ) = 4 := rfl
  constructor <;> norm_num [get_weight_sfc_int, divF, h4]

/-- C5 (amended): for every direction whose distance entry is nonzero the
surfaces are `weight_sfc[k] = max(0, (stage - stage_nbrs[k]) / distances[k])`
and `weight_int[k] = max(0, (qx*jvec[k] + qy*ivec[k]) / distances[k])`;
there is no guard for a zero distance — at such an entry the division by
zero is performed and yields a non-finite float the caller must avoid or
overwrite (real callers pass a nonzero placeholder distance at the
self-direction). -/
theorem c5_surfaces_amended (stage qx qy : ℚ)
    (stage_nbrs ivec jvec distances : Fin 9 → ℚ) (k : Fin 9)
    (hk : distances k ≠ 0) :
    (get_weight_sfc_int stage stage_nbrs qx qy ivec jvec distances).1 k
        = some (max 0 ((stage - stage_nbrs k) / distances k)) ∧
      (get_weight_sfc_int stage stage_nbrs qx qy ivec jvec distances).2 k
        = some (max 0 ((qx * jvec k + qy * ivec k) / distances k)) := by
  constructor <;> simp [get_weight_sfc_int, divF, hk]

/-- C5 witness: a concrete direction with distance 2 and downhill stage
difference 2 gets surface weight `max 0 (2/2) = 1`; with `qx = qy = 1` and
unit direction components the momentum weight is also 1. -/
theorem c5_surfaces_witness :
    (get_weight_sfc_int 3 (fun _ => 1) 1 1 (fun _ => 1) (fun _ => 1)
        (fun _ => 2)).1 0 = some 1 ∧
      (get_weight_sfc_int 3 (fun _ => 1) 1 1 (fun _ => 1) (fun _ => 1)
        (fun _ => 2)).2 0 = some 1 := by
  have h := c5_surfaces_amended 3 1 1 (fun _ => 1) (fun _ => 1) (fun _ => 1)
    (fun _ => 2) 0 (by norm_num)
  obtain ⟨h1, h2⟩ := h
  constructor
  · rw [h1]; norm_num [max_def]
  · rw [h2]; norm_num [max_def]

/-! ### Claims C7 and C8: the index transforms -/

/-- C7: for `0 ≤ row < m` and `0 ≤ col < n` (with `m * n` small enough
that every `int64` intermediate is exact, so `ℤ` models the `numba`
arithmetic faithfully), raveling and then unraveling returns the original
pair, and neither call raises. -/
theorem c7_ravel_unravel_round_trip (m n row col : ℤ)
    (hr0 : 0 ≤ row) (hrm : row < m) (hc0 : 0 ≤ col) (hcn : col < n)
    (hfit : m * n < 2 ^ 63) :
    (custom_ravel (row, col) (m, n)).bind (fun f => custom_unravel f (m, n))
      = some (row, col) := by
  have hn : 0 < n := lt_of_le_of_lt hc0 hcn
  have h1 : ¬ ((row, col).1 > (m, n).1 ∨ (row, col).2 > (m, n).2) := by
    push_neg
    exact ⟨le_of_lt hrm, le_of_lt hcn⟩
  have hub : ¬ (row * n + col > (m, n).2 * (m, n).1) := by
    push_neg
    show row * n + col ≤ n * m
    have hr1 : row * n ≤ (m - 1) * n :=
      mul_le_mul_of_nonneg_right (by linarith) (le_of_lt hn)
    nlinarith
  have hdiv : (row * n + col).fdiv n = row := by
    rw [Int.fdiv_eq_ediv _ (le_of_lt hn), add_comm,
      Int.add_mul_ediv_right col row (ne_of_gt hn),
      Int.ediv_eq_zero_of_lt hc0 hcn, zero_add]
  have hmod : (row * n + col).fmod n = col := by
    rw [Int.fmod_eq_emod _ (le_of_lt hn), add_comm, Int.add_mul_emod_self,
      Int.emod_eq_of_lt hc0 hcn]
  rw [custom_ravel, if_neg h1]
  show custom_unravel (row * n + col) (m, n) = some (row, col)
  rw [custom_unravel, if_neg hub]
  rw [hdiv, hmod]

/-- C7 witness: on the 3×4 grid, `(2, 3)` ravels to 11 and unravels back
to `(2, 3)`. -/
theorem c7_ravel_unravel_round_trip_witness :
    (custom_ravel (2, 3) (3, 4)).bind (fun f => custom_unravel f (3, 4))
      = some (2, 3) :=
  c7_ravel_unravel_round_trip 3 4 2 3 (by norm_num) (by norm_num)
    (by norm_num) (by norm_num) (by norm_num)

/-- C8 (counterexample): on the 3×4 grid the coordinate `(3, 0)` has its
row outside `[0, 3)`, yet `custom_ravel` does not raise (its check is
`tup[0] > shape[0]`, not `>=`): it silently returns flat index 12; and
`custom_unravel` accepts the out-of-range flat index 12 (its check is
`i > 12`, not `>=`) and returns the out-of-grid row `(3, 0)`. -/
theorem c8_counterexample :
    custom_ravel (3, 0) (3, 4) = some 12 ∧
      custom_unravel 12 (3, 4) = some (3, 0) := by
  constructor
  · rw [custom_ravel, if_neg (by norm_num)]
    norm_num
  · rw [custom_unravel, if_neg (by norm_num)]
    norm_num
    constructor <;> decide

/-- C8 (amended): `custom_ravel` raises exactly when `row > shape[0]` or
`col > shape[1]`, and `custom_unravel` raises exactly when the flat index
exceeds `shape[0] * shape[1]`; in particular coordinates strictly inside
the grid never raise, but the boundary inputs `row = shape[0]`,
`col = shape[1]`, `flat = shape[0] * shape[1]` and all negative inputs
are accepted without error. -/
theorem c8_bounds_amended (tup shape : ℤ × ℤ) (i : ℤ) :
    (custom_ravel tup shape = none ↔ tup.1 > shape.1 ∨ tup.2 > shape.2) ∧
      (custom_unravel i shape = none ↔ i > shape.2 * shape.1) := by
  constructor
  · rw [custom_ravel]
    split <;> simp_all
  · rw [custom_unravel]
    split <;> simp_all

end SharedTools

namespace SharedTools

/-! ### Claim C9: `get_steps` on the flattened direction tables -/

lemma get_steps_eval (iw jw : Fin 9 → ℤ) (k : Fin 9) (a b : ℤ)
    (ha : iw k = a) (hb : jw k = b) :
    get_steps iw jw k
      = (Real.sqrt ((a * a + b * b : ℤ) : ℝ), a, b,
        Real.sqrt ((a * a + b * b : ℤ) : ℝ) ≠ 0) := by
  unfold get_steps
  rw [ha, hb]

/-- C9: on the row-major flattening of `get_iwalk`/`get_jwalk`, the
self-direction (flat index 4) has distance 0 and `astep = (dist != 0)`
false, the four orthogonal directions (flat indices 1, 3, 5, 7) have
distance exactly 1 with `astep` true, and the four diagonal directions
(flat indices 0, 2, 6, 8) have distance exactly √2 with `astep` true. -/
theorem c9_get_steps_distances :
    ((get_steps (flat9 get_iwalk) (flat9 get_jwalk) 4).1 = 0 ∧
      ¬ (get_steps (flat9 get_iwalk) (flat9 get_jwalk) 4).2.2.2) ∧
    ((get_steps (flat9 get_iwalk) (flat9 get_jwalk) 1).1 = 1 ∧
      (get_steps (flat9 get_iwalk) (flat9 get_jwalk) 1).2.2.2) ∧
    ((get_steps (flat9 get_iwalk) (flat9 get_jwalk) 3).1 = 1 ∧
      (get_steps (flat9 get_iwalk) (flat9 get_jwalk) 3).2.2.2) ∧
    ((get_steps (flat9 get_iwalk) (flat9 get_jwalk) 5).1 = 1 ∧
      (get_steps (flat9 get_iwalk) (flat9 get_jwalk) 5).2.2.2) ∧
    ((get_steps (flat9 get_iwalk) (flat9 get_jwalk) 7).1 = 1 ∧
      (get_steps (flat9 get_iwalk) (flat9 get_jwalk) 7).2.2.2) ∧
    ((get_steps (flat9 get_iwalk) (flat9 get_jwalk) 0).1 = Real.sqrt 2 ∧
      (get_steps (flat9 get_iwalk) (flat9 get_jwalk) 0).2.2.2) ∧
    ((get_steps (flat9 get_iwalk) (flat9 get_jwalk) 2).1 = Real.sqrt 2 ∧
      (get_steps (flat9 get_iwalk) (flat9 get_jwalk) 2).2.2.2) ∧
    ((get_steps (flat9 get_iwalk) (flat9 get_jwalk) 6).1 = Real.sqrt 2 ∧
      (get_steps (flat9 get_iwalk) (flat9 get_jwalk) 6).2.2.2) ∧
    ((get_steps (flat9 get_iwalk) (flat9 get_jwalk) 8).1 = Real.sqrt 2 ∧
      (get_steps (flat9 get_iwalk) (flat9 get_jwalk) 8).2.2.2) := by
  have e0 := get_steps_eval (flat9 get_iwalk) (flat9 get_jwalk) 0 (-1) (-1)
    (by decide) (by decide)
  have e1 := get_steps_eval (flat9 get_iwalk) (flat9 get_jwalk) 1 0 (-1)
    (by decide) (by decide)
  have e2 := get_steps_eval (flat9 get_iwalk) (flat9 get_jwalk) 2 1 (-1)
    (by decide) (by decide)
  have e3 := get_steps_eval (flat9 get_iwalk) (flat9 get_jwalk) 3 (-1) 0
    (by decide) (by decide)
  have e4 := get_steps_eval (flat9 get_iwalk) (flat9 get_jwalk) 4 0 0
    (by decide) (by decide)
  have e5 := get_steps_eval (flat9 get_iwalk) (flat9 get_jwalk) 5 1 0
    (by decide) (by decide)
  have e6 := get_steps_eval (flat9 get_iwalk) (flat9 get_jwalk) 6 (-1) 1
    (by decide) (by decide)
  have e7 := get_steps_eval (flat9 get_iwalk) (flat9 get_jwalk) 7 0 1
    (by decide) (by decide)
  have e8 := get_steps_eval (flat9 get_iwalk) (flat9 get_jwalk) 8 1 1
    (by decide) (by decide)
  have hs2 : Real.sqrt 2 ≠ 0 := ne_of_gt (Real.sqrt_pos.mpr (by norm_num))
  simp only [e0, e1, e2, e3, e4, e5, e6, e7, e8]
  norm_num [Real.sqrt_zero, Real.sqrt_one, hs2]

end SharedTools

namespace SharedTools

/-! ### Cumulative sums -/

lemma cumsum_length (l : List ℚ) : (cumsum l).length = l.length := by
  induction l with
  | nil => rfl
  | cons x xs ih => simp [cumsum, ih]

lemma cumsum_getD (l : List ℚ) :
    ∀ i, i < l.length → (cumsum l).getD i 0 = (l.take (i + 1)).sum := by
  induction l with
  | nil => intro i h; simp at h
  | cons x xs ih =>
    intro i h
    cases i with
    | zero => simp [cumsum]
    | succ i =>
      have hi : i < xs.length := by simpa using h
      have hmap : ((cumsum xs).map fun y => x + y).getD i 0
          = x + (cumsum xs).getD i 0 := by
        have hlen : i < (cumsum xs).length := by rw [cumsum_length]; exact hi
        rw [List.getD_eq_getElem _ _ (by simpa using hlen),
          List.getD_eq_getElem _ _ hlen]
        simp
      show (x :: (cumsum xs).map fun y => x + y).getD (i + 1) 0 = _
      rw [List.getD_cons_succ, hmap, ih i hi]
      simp [List.sum_cons]

lemma take_sum_mono (l : List ℚ) (h : ∀ x ∈ l, 0 ≤ x) {i j : ℕ} (hij : i ≤ j) :
    (l.take i).sum ≤ (l.take j).sum := by
  rw [show j = i + (j - i) by omega, List.take_add, List.sum_append]
  have h2 : 0 ≤ ((l.drop i).take (j - i)).sum :=
    List.sum_nonneg fun x hx =>
      h x (List.drop_subset i l (List.take_subset _ _ hx))
  linarith

lemma cumsum_mono (l : List ℚ) (h : ∀ x ∈ l, 0 ≤ x) :
    ∀ i j, i ≤ j → j < l.length →
      (cumsum l).getD i 0 ≤ (cumsum l).getD j 0 := by
  intro i j hij hj
  rw [cumsum_getD l i (lt_of_le_of_lt hij hj), cumsum_getD l j hj]
  exact take_sum_mono l h (by omega)

/-! ### The binary search of `np.searchsorted` -/

/-- Correctness of the fueled binary search: starting from a window
`[lo, hi)` whose outside already satisfies the search invariants, and with
enough fuel to cover the window, the result `r` splits the array into
entries `< v` (strictly below `r`) and entries `≥ v` (at or above `r`),
provided the array is sorted. -/
lemma bsearchL_spec (a : List ℚ) (v : ℚ)
    (hmono : ∀ i j, i ≤ j → j < a.length → a.getD i 0 ≤ a.getD j 0) :
    ∀ fuel lo hi, lo ≤ hi → hi - lo ≤ fuel → hi ≤ a.length →
      (∀ j, j < lo → a.getD j 0 < v) →
      (∀ j, hi ≤ j → j < a.length → v ≤ a.getD j 0) →
      lo ≤ bsearchL a v fuel lo hi ∧ bsearchL a v fuel lo hi ≤ hi ∧
        (∀ j, j < bsearchL a v fuel lo hi → a.getD j 0 < v) ∧
        (∀ j, bsearchL a v fuel lo hi ≤ j → j < a.length →
          v ≤ a.getD j 0) := by
  intro fuel
  induction fuel with
  | zero =>
    intro lo hi hle hfuel hhi hlow hhigh
    have hstep : bsearchL a v 0 lo hi = lo := rfl
    rw [hstep]
    refine ⟨le_refl lo, by omega, hlow, fun j hj hjl => hhigh j (by omega) hjl⟩
  | succ fuel ih =>
    intro lo hi hle hfuel hhi hlow hhigh
    have hstep : bsearchL a v (fuel + 1) lo hi
        = if lo < hi then
            if a.getD ((lo + hi) / 2) 0 < v
            then bsearchL a v fuel ((lo + hi) / 2 + 1) hi
            else bsearchL a v fuel lo ((lo + hi) / 2)
          else lo := rfl
    by_cases hlh : lo < hi
    · have hmidlo : lo ≤ (lo + hi) / 2 := by omega
      have hmidhi : (lo + hi) / 2 < hi := by omega
      by_cases hmid : a.getD ((lo + hi) / 2) 0 < v
      · rw [hstep, if_pos hlh, if_pos hmid]
        have hlow2 : ∀ j, j < (lo + hi) / 2 + 1 → a.getD j 0 < v := by
          intro j hj
          exact lt_of_le_of_lt
            (hmono j ((lo + hi) / 2) (by omega) (by omega)) hmid
        obtain ⟨h1, h2, h3, h4⟩ := ih ((lo + hi) / 2 + 1) hi (by omega)
          (by omega) hhi hlow2 hhigh
        exact ⟨by omega, h2, h3, h4⟩
      · rw [hstep, if_pos hlh, if_neg hmid]
        have hvm : v ≤ a.getD ((lo + hi) / 2) 0 := le_of_not_lt hmid
        have hhigh2 : ∀ j, (lo + hi) / 2 ≤ j → j < a.length →
            v ≤ a.getD j 0 := by
          intro j hj hjl
          exact le_trans hvm (hmono ((lo + hi) / 2) j hj hjl)
        obtain ⟨h1, h2, h3, h4⟩ := ih lo ((lo + hi) / 2) (by omega)
          (by omega) (by omega) hlow hhigh2
        exact ⟨h1, by omega, h3, h4⟩
    · rw [hstep, if_neg hlh]
      refine ⟨le_refl lo, by omega, hlow, fun j hj hjl => hhigh j (by omega) hjl⟩

lemma searchsorted_spec (a : List ℚ) (v : ℚ)
    (hmono : ∀ i j, i ≤ j → j < a.length → a.getD i 0 ≤ a.getD j 0) :
    searchsorted a v ≤ a.length ∧
      (∀ j, j < searchsorted a v → a.getD j 0 < v) ∧
      (∀ j, searchsorted a v ≤ j → j < a.length → v ≤ a.getD j 0) := by
  obtain ⟨h1, h2, h3, h4⟩ := bsearchL_spec a v hmono a.length 0 a.length
    (by omega) (by omega) (le_refl _)
    (fun j hj => absurd hj (by omega))
    (fun j hj hjl => absurd hjl (by omega))
  exact ⟨h2, h3, h4⟩

/-! ### `random_pick` -/

/-- The full behaviour of `random_pick` on a nonempty nonnegative weight
vector whose total is at least the drawn value: exactly the head of the
stream is consumed, the result is in bounds, and it is the smallest index
whose inclusive cumulative sum reaches the draw. -/
lemma random_pick_spec (prob : List ℚ) (u : ℚ) (rest : List ℚ)
    (hne : prob ≠ []) (hnn : ∀ x ∈ prob, 0 ≤ x) (hu : u ≤ prob.sum) :
    random_pick prob (u :: rest)
        = some (searchsorted (cumsum prob) u, rest) ∧
      searchsorted (cumsum prob) u < prob.length ∧
      u ≤ (prob.take (searchsorted (cumsum prob) u + 1)).sum ∧
      ∀ j, j < searchsorted (cumsum prob) u → (prob.take (j + 1)).sum < u := by
  have hclen : (cumsum prob).length = prob.length := cumsum_length prob
  have hmono : ∀ i j, i ≤ j → j < (cumsum prob).length →
      (cumsum prob).getD i 0 ≤ (cumsum prob).getD j 0 := by
    intro i j hij hj
    rw [hclen] at hj
    exact cumsum_mono prob hnn i j hij hj
  obtain ⟨hle, hlow, hhigh⟩ := searchsorted_spec (cumsum prob) u hmono
  have hlen0 : 0 < prob.length := List.length_pos.mpr hne
  have hrlt : searchsorted (cumsum prob) u < prob.length := by
    by_contra hcon
    push_neg at hcon
    have hlast := hlow (prob.length - 1) (by omega)
    rw [cumsum_getD prob (prob.length - 1) (by omega),
      show prob.length - 1 + 1 = prob.length from by omega,
      List.take_length] at hlast
    exact absurd hu (not_le.mpr hlast)
  refine ⟨?_, hrlt, ?_, ?_⟩
  · show (match get_random_uniform (u :: rest) with
      | none => none
      | some (u, rest) =>
        if searchsorted (cumsum prob) u < prob.length
        then some (searchsorted (cumsum prob) u, rest)
        else none) = _
    show (if searchsorted (cumsum prob) u < prob.length
      then some (searchsorted (cumsum prob) u, rest)
      else none) = _
    rw [if_pos hrlt]
  · have := hhigh (searchsorted (cumsum prob) u) (le_refl _)
      (by rw [hclen]; exact hrlt)
    rwa [cumsum_getD prob _ hrlt] at this
  · intro j hj
    have hjlt : j < prob.length := lt_trans hj hrlt
    have := hlow j hj
    rwa [cumsum_getD prob j hjlt] at this

end SharedTools

namespace SharedTools

/-! ### Claims C6 and C10: the weighted sampler -/

/-- C6: under the sampler's contract (nonempty weight vector with
nonnegative entries whose total is at least the drawn value, as holds for
the normalized vectors it is given), `random_pick` consumes exactly the
head `u` of the random stream — the returned stream is exactly `rest` —
and returns the smallest index whose inclusive cumulative sum (taken in
the fixed direction order of the input) is ≥ `u`. -/
theorem c6_random_pick_smallest_index (prob : List ℚ) (u : ℚ) (rest : List ℚ)
    (hne : prob ≠ []) (hnn : ∀ x ∈ prob, 0 ≤ x) (hu : u ≤ prob.sum) :
    ∃ i, random_pick prob (u :: rest) = some (i, rest) ∧
      u ≤ (prob.take (i + 1)).sum ∧
      ∀ j, j < i → (prob.take (j + 1)).sum < u := by
  obtain ⟨h1, -, h3, h4⟩ := random_pick_spec prob u rest hne hnn hu
  exact ⟨_, h1, h3, h4⟩

/-- C6 witness: weights `[1/2, 1/2]` and draw `3/4`: the theorem applies
and the selected index satisfies the cumulative characterization (it is
index 1: the cumulative sums are `1/2 < 3/4` and `1 ≥ 3/4`). -/
theorem c6_random_pick_smallest_index_witness :
    ∃ i, random_pick [1/2, 1/2] ((3/4) :: [])
        = some (i, []) ∧
      (3/4 : ℚ) ≤ (([1/2, 1/2] : List ℚ).take (i + 1)).sum ∧
      ∀ j, j < i → ((([1/2, 1/2] : List ℚ).take (j + 1)).sum < 3/4) := by
  refine c6_random_pick_smallest_index [1/2, 1/2] (3/4) []
    (by simp) ?_ ?_
  · intro x hx
    simp at hx
    rw [hx]
    norm_num
  · norm_num

/-- C10: for a length-9 weight vector with nonnegative entries summing to
at least 1 and a draw `u ∈ [0, 1)`, `random_pick` returns an in-bounds
index (`< 9`): the out-of-range lookup `arr[len(prob)]` is unreachable
because the final cumulative sum is ≥ 1 > u. -/
theorem c10_random_pick_in_bounds (prob : List ℚ) (u : ℚ) (rest : List ℚ)
    (hlen : prob.length = 9) (hnn : ∀ x ∈ prob, 0 ≤ x)
    (hsum : 1 ≤ prob.sum) (hu0 : 0 ≤ u) (hu1 : u < 1) :
    ∃ i, i < 9 ∧ random_pick prob (u :: rest) = some (i, rest) := by
  have hne : prob ≠ [] := by
    intro h
    rw [h] at hlen
    simp at hlen
  obtain ⟨h1, h2, -, -⟩ := random_pick_spec prob u rest hne hnn
    (le_trans (le_of_lt hu1) hsum)
  exact ⟨_, hlen ▸ h2, h1⟩

/-- C10 witness: the length-9 vector `[1/2, 1/2, 0, …, 0]` with draw `1/4`
yields an in-bounds index. -/
theorem c10_random_pick_in_bounds_witness :
    ∃ i, i < 9 ∧ random_pick [1/2, 1/2, 0, 0, 0, 0, 0, 0, 0]
        ((1/4) :: [])
      = some (i, []) := by
  refine c10_random_pick_in_bounds [1/2, 1/2, 0, 0, 0, 0, 0, 0, 0] (1/4) []
    (by simp) ?_ (by norm_num) (by norm_num) (by norm_num)
  intro x hx
  simp at hx
  rcases hx with h | h <;> rw [h] <;> norm_num

end SharedTools
